import Mathlib

/-!
Verification of the kripo three-point pharmacophore fingerprint encoder
(`kripo/fingerprint/threepoint.py`) against its specification.

The encoder is embedded shallowly:

* a `Feature` is a pharmacophore feature: its `kind` is one of the six
  feature types, and `fid` is an abstract identity standing for the
  feature's 3-D position (two features of the same kind at different
  positions have different `fid`s);
* geometric distance is an explicit parameter `dist : Feature → Feature → ℚ`,
  matching the spec's statement that a `distance(other)` capability is the
  only geometric primitive the core requires;
* the bin table is a parameter `bins : List ℚ` and the bit dictionary a
  parameter `bd : String → Option ℕ` (lookup misses model `KeyError`);
* the fingerprint is a `Finset ℕ` of bit positions, and the fallible encode
  returns `Except KErr (Finset ℕ)` where `KErr.unknownKey` models the
  `KeyError` raised on a missing dictionary key and `KErr.invalidFuzz`
  models the `ValueError` raised for an unsupported `fuzzy_factor`.
-/

/-- The six pharmacophore feature types (`FEATURE2BIT` keys in the source). -/
inductive FeatureKind where
  | LIPO | POSC | NEGC | HDON | HACC | AROM
deriving DecidableEq, Repr

/-- `FEATURE2BIT`: feature type name to fingerprint bit short name. -/
def FEATURE2BIT : FeatureKind → Char
  | .LIPO => 'H'
  | .POSC => 'P'
  | .NEGC => 'N'
  | .HDON => 'O'
  | .HACC => 'A'
  | .AROM => 'R'

/-- A pharmacophore feature: a type tag plus an abstract position identity. -/
structure Feature where
  kind : FeatureKind
  fid : ℕ
deriving DecidableEq, Repr

/-- The tag character of a feature (`FEATURE2BIT[f.kind]`). -/
def Feature.tag (f : Feature) : Char := FEATURE2BIT f.kind

/-- Modelled from the spec (§4.1; `bin_distance` lives in `kripo/fingerprint/utils.py`,
which is not part of the sources): the bin index of distance `d` is the number of
thresholds `≤ d`, i.e. the smallest `i` with `d < bins[i]`, or `bins.length` when
no threshold exceeds `d`. -/
def bin_distance (d : ℚ) (bins : List ℚ) : ℕ :=
  bins.countP (fun t => decide (t ≤ d))

/-- `chr(b + 97)`: a bin index rendered as a key character.  The source only
evaluates `chr` on non-negative bin indices (they are bounds-checked first). -/
def binChar (b : ℤ) : Char := Char.ofNat (b + 97).toNat

/-- Python `range(a, b + 1)` over integers. -/
def rangeZ (a b : ℤ) : List ℤ := (List.range (b + 1 - a).toNat).map (fun n : ℕ => a + (n : ℤ))

/-- `fuzzy_offsets`: the fuzzy offset generator.  `none` models the
`ValueError('Invalid fuzzy_factor')` raised for unsupported negative factors. -/
def fuzzy_offsets (f : ℤ) : Option (List (ℤ × ℤ × ℤ)) :=
  if 0 ≤ f then
    some ((rangeZ (-f) f).flatMap fun i =>
      (rangeZ (-f) f).flatMap fun j =>
        (rangeZ (-f) f).map fun k => (i, j, k))
  else if f = -1 then
    some [(1, 2, 1), (1, 1, -1), (1, -1, -1), (1, 0, -1), (0, -1, -1), (-1, -1, -1), (1, 2, 0)]
  else if f = -2 then
    some [(0, 0, 0), (-1, 0, 0), (1, 0, 0), (0, -1, 0), (0, 1, 0), (0, 0, -1), (0, 0, 1)]
  else
    none

/-- The tag order used to build `ordered_features`
(`sorted(..., key=lambda f: FEATURE2BIT[f.kind])`); Python's `sorted` is a
stable sort by this key, modelled by `List.insertionSort`, which is stable. -/
def featR (f g : Feature) : Prop := f.tag ≤ g.tag

instance : DecidableRel featR := fun f g => inferInstanceAs (Decidable (f.tag ≤ g.tag))

instance : IsTotal Feature featR := ⟨fun a b => le_total a.tag b.tag⟩

instance : IsTrans Feature featR := ⟨fun _ _ _ h1 h2 => le_trans h1 h2⟩

/-- One entry of the `distances` list in the triple loop: a tag character and
a (possibly perturbed) bin index. -/
structure Obs where
  id : Char
  bin : ℤ
deriving DecidableEq, Repr

/-- The Python sort key `(d['bin'], ord(d['id']))`: compare by bin index
first, then by tag character. -/
def obsR (x y : Obs) : Prop := x.bin < y.bin ∨ (x.bin = y.bin ∧ x.id ≤ y.id)

instance : DecidableRel obsR := fun x y =>
  inferInstanceAs (Decidable (x.bin < y.bin ∨ (x.bin = y.bin ∧ x.id ≤ y.id)))

/-- All index pairs `a < b` of the Python double loop, as element pairs in
loop order. -/
def orderedPairs : List α → List (α × α)
  | [] => []
  | x :: xs => (xs.map fun y => (x, y)) ++ orderedPairs xs

/-- All index triples `a < b < c` of the Python triple loop, as element
triples in loop order. -/
def orderedTriples : List α → List (α × α × α)
  | [] => []
  | x :: xs => ((orderedPairs xs).map fun p => (x, p.1, p.2)) ++ orderedTriples xs

/-- The singleton keys: a bare tag character per feature. -/
def singletonKeys (l : List Feature) : List String :=
  l.map fun a => String.mk [a.tag]

/-- The base pair key `ids[0] + chr(bin_id + 97) + ids[1]`. -/
def pairBaseKey (dist : Feature → Feature → ℚ) (bins : List ℚ) (a b : Feature) : String :=
  String.mk [a.tag, binChar (bin_distance (dist a b) bins), b.tag]

/-- The fuzz-perturbed pair keys for one pair: offset `i` runs over
`range(-pair_fuzzy_factor, pair_fuzzy_factor + 1)` and the combination is
skipped when `nr_bins < bin_id + i` or `bin_id + i < 0`. -/
def pairFuzzKeys (dist : Feature → Feature → ℚ) (bins : List ℚ) (pf : ℤ)
    (a b : Feature) : List String :=
  let binId : ℤ := bin_distance (dist a b) bins
  (rangeZ (-pf) pf).filterMap fun i =>
    if (bins.length : ℤ) < binId + i ∨ binId + i < 0 then none
    else some (String.mk [a.tag, binChar (binId + i), b.tag])

/-- All keys of the pair loop: per pair, the base key then the fuzz keys. -/
def allPairKeys (dist : Feature → Feature → ℚ) (bins : List ℚ) (pf : ℤ)
    (l : List Feature) : List String :=
  (orderedPairs l).flatMap fun p =>
    pairBaseKey dist bins p.1 p.2 :: pairFuzzKeys dist bins pf p.1 p.2

/-- The `distances` list built for a triple `(a, b, c)`: each feature's
observation carries the binned distance between the *other two* features. -/
def tripleObs (dist : Feature → Feature → ℚ) (bins : List ℚ)
    (a b c : Feature) : List Obs :=
  [⟨c.tag, bin_distance (dist a b) bins⟩,
   ⟨b.tag, bin_distance (dist a c) bins⟩,
   ⟨a.tag, bin_distance (dist b c) bins⟩]

/-- `distances.sort(key=lambda d: (d['bin'], ord(d['id'])))`. -/
def tripleBaseObs (dist : Feature → Feature → ℚ) (bins : List ℚ)
    (a b c : Feature) : List Obs :=
  List.insertionSort obsR (tripleObs dist bins a b c)

/-- Rendering of a sorted observation list as a key: the tag characters,
then the bin characters. -/
def obsKey (l : List Obs) : String :=
  String.mk (l.map Obs.id ++ l.map fun o => binChar o.bin)

/-- The base triple key, built from the sorted observations. -/
def tripleBaseKey (dist : Feature → Feature → ℚ) (bins : List ℚ)
    (a b c : Feature) : String :=
  obsKey (tripleBaseObs dist bins a b c)

/-- One fuzz-perturbed triple key: the already-sorted bins are perturbed
element-wise by `(i, j, k)`, the combination is skipped when any perturbed
bin is `< 0` or `≥ nr_bins`, and the perturbed observations are re-sorted
before rendering.  The `distances` list always has three entries, so the
fall-through case is unreachable in the encoder. -/
def fuzzTripleKey (bins : List ℚ) (ds : List Obs) (o : ℤ × ℤ × ℤ) : Option String :=
  match ds, o with
  | [d0, d1, d2], (i, j, k) =>
    let b0 := d0.bin + i
    let b1 := d1.bin + j
    let b2 := d2.bin + k
    if (bins.length : ℤ) ≤ b0 ∨ b0 < 0 ∨ (bins.length : ℤ) ≤ b1 ∨ b1 < 0 ∨
        (bins.length : ℤ) ≤ b2 ∨ b2 < 0 then none
    else some (obsKey (List.insertionSort obsR [⟨d0.id, b0⟩, ⟨d1.id, b1⟩, ⟨d2.id, b2⟩]))
  | _, _ => none

/-- All keys of one triple: the base key, then one key per surviving offset. -/
def tripleKeys (dist : Feature → Feature → ℚ) (bins : List ℚ)
    (offsets : List (ℤ × ℤ × ℤ)) (a b c : Feature) : List String :=
  tripleBaseKey dist bins a b c ::
    offsets.filterMap (fuzzTripleKey bins (tripleBaseObs dist bins a b c))

/-- All keys of the triple loop. -/
def tripleKeyList (dist : Feature → Feature → ℚ) (bins : List ℚ)
    (offsets : List (ℤ × ℤ × ℤ)) (l : List Feature) : List String :=
  (orderedTriples l).flatMap fun t => tripleKeys dist bins offsets t.1 t.2.1 t.2.2

/-- Errors of the encoder: `unknownKey` models the `KeyError` of a failed
`BIT_INFO` lookup, `invalidFuzz` the `ValueError` of `fuzzy_offsets`. -/
inductive KErr where
  | unknownKey | invalidFuzz
deriving DecidableEq, Repr

deriving instance DecidableEq for Except

/-- Look every key up in the bit dictionary, collecting the bit positions;
the first missing key aborts with `KErr.unknownKey` (Python's `KeyError`). -/
def lookupAllE (bd : String → Option ℕ) : List String → Except KErr (Finset ℕ)
  | [] => .ok ∅
  | k :: ks =>
    match bd k with
    | none => .error .unknownKey
    | some b =>
      match lookupAllE bd ks with
      | .error e => .error e
      | .ok s => .ok (insert b s)

/-- `pair_fuzzy_factor`: the reduced 1-D fuzz radius used by the pair loop. -/
def pairFactor (f : ℤ) : ℤ := if f < 0 then 1 else f

/-- `ordered_features`: the features sorted by tag character (stable). -/
def orderedFeatures (features : List Feature) : List Feature :=
  List.insertionSort featR features

/-- The keys of the `if subs:` blocks: all singleton keys, then all pair keys
(empty when `subs` is not set). -/
def subKeyList (dist : Feature → Feature → ℚ) (bins : List ℚ) (fuzzy : ℤ)
    (ordered : List Feature) (subs : Bool) : List String :=
  if subs then singletonKeys ordered ++ allPairKeys dist bins (pairFactor fuzzy) ordered
  else []

/-- `from_pharmacophore`: the fingerprint encoder.  Features are sorted by
tag character; singleton and pair keys are looked up when `subs` is set;
then the fuzzy offsets are materialised (raising for unsupported factors)
and the triple keys are looked up; the fingerprint is the set of all bit
positions found. -/
def from_pharmacophore (bd : String → Option ℕ) (bins : List ℚ)
    (dist : Feature → Feature → ℚ) (features : List Feature)
    (subs : Bool) (fuzzy : ℤ) : Except KErr (Finset ℕ) :=
  match lookupAllE bd (subKeyList dist bins fuzzy (orderedFeatures features) subs) with
  | .error e => .error e
  | .ok subBits =>
    match fuzzy_offsets fuzzy with
    | none => .error .invalidFuzz
    | some offsets =>
      match lookupAllE bd (tripleKeyList dist bins offsets (orderedFeatures features)) with
      | .error e => .error e
      | .ok tripleBits => .ok (subBits ∪ tripleBits)

/-- Every key the encoder constructs and looks up, in emission order. -/
def emittedKeys (dist : Feature → Feature → ℚ) (bins : List ℚ)
    (offsets : List (ℤ × ℤ × ℤ)) (fuzzy : ℤ) (l : List Feature)
    (subs : Bool) : List String :=
  subKeyList dist bins fuzzy l subs ++ tripleKeyList dist bins offsets l

/-! ### Lemmas about `rangeZ` and the fuzzy offset generator -/

/-- Strict lexicographic order on offset triples, outer axis most significant. -/
def lexLT (x y : ℤ × ℤ × ℤ) : Prop :=
  x.1 < y.1 ∨ (x.1 = y.1 ∧ (x.2.1 < y.2.1 ∨ (x.2.1 = y.2.1 ∧ x.2.2 < y.2.2)))

lemma mem_rangeZ {a b x : ℤ} : x ∈ rangeZ a b ↔ a ≤ x ∧ x ≤ b := by
  unfold rangeZ
  rw [List.mem_map]
  constructor
  · rintro ⟨n, hn, rfl⟩
    rw [List.mem_range] at hn
    omega
  · rintro ⟨h1, h2⟩
    exact ⟨(x - a).toNat, List.mem_range.mpr (by omega), by omega⟩

lemma length_rangeZ (a b : ℤ) : (rangeZ a b).length = (b + 1 - a).toNat := by
  unfold rangeZ
  rw [List.length_map, List.length_range]

lemma pairwise_rangeZ (a b : ℤ) : (rangeZ a b).Pairwise (· < ·) := by
  unfold rangeZ
  rw [List.pairwise_map]
  exact (List.pairwise_lt_range _).imp (by omega)

lemma inner_prod_length (x : ℤ) (l2 l3 : List ℤ) :
    (l2.flatMap fun j => l3.map fun k => (x, j, k)).length = l2.length * l3.length := by
  induction l2 with
  | nil => simp
  | cons y ys ih =>
    simp only [List.flatMap_cons, List.length_append, List.length_map, ih, List.length_cons]
    ring

lemma outer_prod_length (l1 l2 l3 : List ℤ) :
    (l1.flatMap fun i => l2.flatMap fun j => l3.map fun k => (i, j, k)).length
      = l1.length * l2.length * l3.length := by
  induction l1 with
  | nil => simp
  | cons x xs ih =>
    simp only [List.flatMap_cons, List.length_append, ih, inner_prod_length, List.length_cons]
    ring

/-- **C5.** For every `fuzzy_factor f ≥ 0`, `fuzzy_offsets f` yields exactly the
full cross-product `{-f..f} × {-f..f} × {-f..f}` in nested lexicographic order
(outer axis slowest), hence `(2f+1)³` offsets; in particular `fuzzy_offsets 0`
yields exactly the single offset `(0,0,0)`. -/
theorem fuzzy_offsets_nonneg_spec (f : ℤ) (hf : 0 ≤ f) :
    ∃ L : List (ℤ × ℤ × ℤ), fuzzy_offsets f = some L ∧
      L.length = (2 * f + 1).toNat ^ 3 ∧
      (∀ o : ℤ × ℤ × ℤ, o ∈ L ↔
        -f ≤ o.1 ∧ o.1 ≤ f ∧ -f ≤ o.2.1 ∧ o.2.1 ≤ f ∧ -f ≤ o.2.2 ∧ o.2.2 ≤ f) ∧
      L.Pairwise lexLT ∧
      (f = 0 → L = [(0, 0, 0)]) := by
  have hL : fuzzy_offsets f = some ((rangeZ (-f) f).flatMap fun i =>
      (rangeZ (-f) f).flatMap fun j => (rangeZ (-f) f).map fun k => (i, j, k)) := by
    unfold fuzzy_offsets
    rw [if_pos hf]
  refine ⟨_, hL, ?_, ?_, ?_, ?_⟩
  · rw [outer_prod_length, length_rangeZ]
    have h : (f + 1 - -f).toNat = (2 * f + 1).toNat := by omega
    rw [h]
    ring
  · rintro ⟨i, j, k⟩
    rw [List.mem_flatMap]
    constructor
    · rintro ⟨i', hi', hrest⟩
      rw [List.mem_flatMap] at hrest
      obtain ⟨j', hj', hmap⟩ := hrest
      rw [List.mem_map] at hmap
      obtain ⟨k', hk', heq⟩ := hmap
      obtain ⟨rfl, rfl, rfl⟩ : i' = i ∧ j' = j ∧ k' = k := by
        injection heq with h1 h2
        injection h2 with h2 h3
        exact ⟨h1, h2, h3⟩
      rw [mem_rangeZ] at hi' hj' hk'
      exact ⟨hi'.1, hi'.2, hj'.1, hj'.2, hk'.1, hk'.2⟩
    · rintro ⟨h1, h2, h3, h4, h5, h6⟩
      exact ⟨i, mem_rangeZ.mpr ⟨h1, h2⟩, List.mem_flatMap.mpr
        ⟨j, mem_rangeZ.mpr ⟨h3, h4⟩, List.mem_map.mpr ⟨k, mem_rangeZ.mpr ⟨h5, h6⟩, rfl⟩⟩⟩
  · rw [List.pairwise_flatMap]
    constructor
    · intro i _
      rw [List.pairwise_flatMap]
      constructor
      · intro j _
        rw [List.pairwise_map]
        exact (pairwise_rangeZ _ _).imp fun hk => Or.inr ⟨rfl, Or.inr ⟨rfl, hk⟩⟩
      · refine (pairwise_rangeZ _ _).imp ?_
        intro j1 j2 hj x hx y hy
        rw [List.mem_map] at hx hy
        obtain ⟨k1, _, rfl⟩ := hx
        obtain ⟨k2, _, rfl⟩ := hy
        exact Or.inr ⟨rfl, Or.inl hj⟩
    · refine (pairwise_rangeZ _ _).imp ?_
      intro i1 i2 hi x hx y hy
      rw [List.mem_flatMap] at hx hy
      obtain ⟨j1, _, hx⟩ := hx
      obtain ⟨j2, _, hy⟩ := hy
      rw [List.mem_map] at hx hy
      obtain ⟨k1, _, rfl⟩ := hx
      obtain ⟨k2, _, rfl⟩ := hy
      exact Or.inl hi
  · rintro rfl
    decide

/-- Witness for C5 at `f = 1`. -/
theorem fuzzy_offsets_nonneg_spec_witness :
    (0 : ℤ) ≤ 1 ∧
    ∃ L : List (ℤ × ℤ × ℤ), fuzzy_offsets 1 = some L ∧
      L.length = (2 * 1 + 1 : ℤ).toNat ^ 3 ∧
      (∀ o : ℤ × ℤ × ℤ, o ∈ L ↔
        -1 ≤ o.1 ∧ o.1 ≤ 1 ∧ -1 ≤ o.2.1 ∧ o.2.1 ≤ 1 ∧ -1 ≤ o.2.2 ∧ o.2.2 ≤ 1) ∧
      L.Pairwise lexLT ∧
      ((1 : ℤ) = 0 → L = [(0, 0, 0)]) :=
  ⟨by decide, fuzzy_offsets_nonneg_spec 1 (by decide)⟩

/-- **C6.** `fuzzy_offsets (-1)` yields exactly the seven legacy offsets in
their documented order, `fuzzy_offsets (-2)` exactly the seven axis-aligned
offsets in their documented order, and every other negative factor fails with
the invalid-argument error. -/
theorem fuzzy_offsets_legacy_spec :
    fuzzy_offsets (-1) = some
      [(1, 2, 1), (1, 1, -1), (1, -1, -1), (1, 0, -1), (0, -1, -1), (-1, -1, -1), (1, 2, 0)] ∧
    fuzzy_offsets (-2) = some
      [(0, 0, 0), (-1, 0, 0), (1, 0, 0), (0, -1, 0), (0, 1, 0), (0, 0, -1), (0, 0, 1)] ∧
    ∀ f : ℤ, f < 0 → f ≠ -1 → f ≠ -2 → fuzzy_offsets f = none := by
  refine ⟨by decide, by decide, ?_⟩
  intro f h1 h2 h3
  unfold fuzzy_offsets
  rw [if_neg (by omega), if_neg h2, if_neg h3]

/-- Witness for C6 at `f = -3`. -/
theorem fuzzy_offsets_legacy_spec_witness :
    (-3 : ℤ) < 0 ∧ (-3 : ℤ) ≠ -1 ∧ (-3 : ℤ) ≠ -2 ∧ fuzzy_offsets (-3) = none :=
  ⟨by decide, by decide, by decide,
    fuzzy_offsets_legacy_spec.2.2 (-3) (by decide) (by decide) (by decide)⟩

/-! ### The observation order -/

instance : IsTrans Obs obsR :=
  ⟨fun x y z hxy hyz => by
    rcases hxy with h | ⟨h, h'⟩ <;> rcases hyz with g | ⟨g, g'⟩
    · exact Or.inl (lt_trans h g)
    · exact Or.inl (g ▸ h)
    · exact Or.inl (h ▸ g)
    · exact Or.inr ⟨h.trans g, le_trans h' g'⟩⟩

instance : IsTotal Obs obsR :=
  ⟨fun x y => by
    rcases lt_trichotomy x.bin y.bin with h | h | h
    · exact Or.inl (Or.inl h)
    · rcases le_total x.id y.id with h' | h'
      · exact Or.inl (Or.inr ⟨h, h'⟩)
      · exact Or.inr (Or.inr ⟨h.symm, h'⟩)
    · exact Or.inr (Or.inl h)⟩

instance : IsAntisymm Obs obsR :=
  ⟨fun x y hxy hyx => by
    cases x with
    | mk xi xb =>
      cases y with
      | mk yi yb =>
        simp only [obsR] at hxy hyx
        rcases hxy with h | ⟨h, h'⟩
        · rcases hyx with g | ⟨g, g'⟩
          · exact absurd (lt_trans h g) (lt_irrefl _)
          · exact absurd h (by omega)
        · rcases hyx with g | ⟨g, g'⟩
          · exact absurd g (by omega)
          · have h1 : xi = yi := le_antisymm h' g'
            subst h1
            have h2 : xb = yb := h
            subst h2
            rfl⟩

lemma sorted_obs_insertionSort (l : List Obs) :
    (List.insertionSort obsR l).Pairwise obsR :=
  List.sorted_insertionSort obsR l

/-- A sorted list equals the insertion sort of any list it is a permutation of. -/
lemma eq_insertionSort_of_sorted_of_perm {l m : List Obs} (h : l.Perm m)
    (hs : l.Pairwise obsR) : l = List.insertionSort obsR m :=
  List.eq_of_perm_of_sorted (h.trans (List.perm_insertionSort obsR m).symm) hs
    (sorted_obs_insertionSort m)

lemma obs_insertionSort_eq_of_perm {l₁ l₂ : List Obs} (h : l₁.Perm l₂) :
    List.insertionSort obsR l₁ = List.insertionSort obsR l₂ :=
  eq_insertionSort_of_sorted_of_perm ((List.perm_insertionSort obsR l₁).trans h)
    (sorted_obs_insertionSort l₁)

/-- **C2.** For every triple `(a, b, c)`, the base triple key is built from the
three `(tag, bin)` observations in which each feature's bin is the binned
distance between the other two features; the observations are sorted by
`(bin, tag character)` ascending, and the key is the three tag characters
followed by the three bin characters (each bin index offset by a fixed
letter).  The base key is the first key the triple emits. -/
theorem triple_base_key_spec (dist : Feature → Feature → ℚ) (bins : List ℚ)
    (offsets : List (ℤ × ℤ × ℤ)) (a b c : Feature) :
    ∃ o : List Obs,
      o.Perm [⟨c.tag, bin_distance (dist a b) bins⟩,
              ⟨b.tag, bin_distance (dist a c) bins⟩,
              ⟨a.tag, bin_distance (dist b c) bins⟩] ∧
      o.Pairwise (fun x y => x.bin < y.bin ∨ (x.bin = y.bin ∧ x.id ≤ y.id)) ∧
      tripleBaseKey dist bins a b c =
        String.mk (o.map Obs.id ++ o.map fun x => Char.ofNat (x.bin + 97).toNat) ∧
      (tripleKeys dist bins offsets a b c).head? = some (tripleBaseKey dist bins a b c) := by
  refine ⟨tripleBaseObs dist bins a b c, List.perm_insertionSort obsR _, ?_, rfl, rfl⟩
  exact (sorted_obs_insertionSort _).imp fun h => h

lemma fuzzTripleKey_cons (bins : List ℚ) (d0 d1 d2 : Obs) (i j k : ℤ) :
    fuzzTripleKey bins [d0, d1, d2] (i, j, k) =
      if (bins.length : ℤ) ≤ d0.bin + i ∨ d0.bin + i < 0 ∨
          (bins.length : ℤ) ≤ d1.bin + j ∨ d1.bin + j < 0 ∨
          (bins.length : ℤ) ≤ d2.bin + k ∨ d2.bin + k < 0 then none
      else some (obsKey (List.insertionSort obsR [⟨d0.id, d0.bin + i⟩,
        ⟨d1.id, d1.bin + j⟩, ⟨d2.id, d2.bin + k⟩])) := rfl

/-- **C3.** For every triple and every offset `(i, j, k)` of the fuzzy offset
generator, the encoder perturbs the three already-sorted bins element-wise by
`i`, `j`, `k` respectively, discards the combination when any perturbed bin is
`< 0` or `≥ bins.length`, and otherwise re-sorts the perturbed observations by
`(bin, tag character)`, rebuilds the key, and emits it: these are exactly the
keys a triple emits after its base key. -/
theorem triple_fuzz_spec (dist : Feature → Feature → ℚ) (bins : List ℚ)
    (offsets : List (ℤ × ℤ × ℤ)) (a b c : Feature) :
    ∃ d0 d1 d2 : Obs,
      tripleBaseObs dist bins a b c = [d0, d1, d2] ∧
      ∀ K : String,
        K ∈ (tripleKeys dist bins offsets a b c).tail ↔
          ∃ i j k : ℤ, (i, j, k) ∈ offsets ∧
            0 ≤ d0.bin + i ∧ d0.bin + i < (bins.length : ℤ) ∧
            0 ≤ d1.bin + j ∧ d1.bin + j < (bins.length : ℤ) ∧
            0 ≤ d2.bin + k ∧ d2.bin + k < (bins.length : ℤ) ∧
            ∃ o : List Obs,
              o.Perm [⟨d0.id, d0.bin + i⟩, ⟨d1.id, d1.bin + j⟩, ⟨d2.id, d2.bin + k⟩] ∧
              o.Pairwise (fun x y => x.bin < y.bin ∨ (x.bin = y.bin ∧ x.id ≤ y.id)) ∧
              K = obsKey o := by
  obtain ⟨d0, d1, d2, hds⟩ :
      ∃ d0 d1 d2, tripleBaseObs dist bins a b c = [d0, d1, d2] := by
    have hlen : (tripleBaseObs dist bins a b c).length = 3 := by
      unfold tripleBaseObs
      rw [List.length_insertionSort]
      rfl
    exact List.length_eq_three.mp hlen
  refine ⟨d0, d1, d2, hds, fun K => ?_⟩
  show K ∈ offsets.filterMap (fuzzTripleKey bins (tripleBaseObs dist bins a b c)) ↔ _
  rw [hds, List.mem_filterMap]
  constructor
  · rintro ⟨⟨i, j, k⟩, ho, heq⟩
    by_cases hcond : (bins.length : ℤ) ≤ d0.bin + i ∨ d0.bin + i < 0 ∨
        (bins.length : ℤ) ≤ d1.bin + j ∨ d1.bin + j < 0 ∨
        (bins.length : ℤ) ≤ d2.bin + k ∨ d2.bin + k < 0
    · rw [fuzzTripleKey_cons, if_pos hcond] at heq
      exact absurd heq (by simp)
    · rw [fuzzTripleKey_cons, if_neg hcond] at heq
      push_neg at hcond
      refine ⟨i, j, k, ho, by omega, by omega, by omega, by omega, by omega, by omega,
        List.insertionSort obsR [⟨d0.id, d0.bin + i⟩, ⟨d1.id, d1.bin + j⟩,
          ⟨d2.id, d2.bin + k⟩],
        List.perm_insertionSort obsR _,
        (sorted_obs_insertionSort _).imp (fun h => h), ?_⟩
      exact (Option.some_inj.mp heq).symm
  · rintro ⟨i, j, k, ho, h1, h2, h3, h4, h5, h6, o, hperm, hsort, rfl⟩
    refine ⟨(i, j, k), ho, ?_⟩
    have hcond : ¬((bins.length : ℤ) ≤ d0.bin + i ∨ d0.bin + i < 0 ∨
        (bins.length : ℤ) ≤ d1.bin + j ∨ d1.bin + j < 0 ∨
        (bins.length : ℤ) ≤ d2.bin + k ∨ d2.bin + k < 0) := by omega
    rw [fuzzTripleKey_cons, if_neg hcond]
    congr 1
    have ho2 : o = List.insertionSort obsR [⟨d0.id, d0.bin + i⟩,
        ⟨d1.id, d1.bin + j⟩, ⟨d2.id, d2.bin + k⟩] :=
      eq_insertionSort_of_sorted_of_perm hperm (hsort.imp fun h => h)
    rw [ho2]

lemma pairFuzzKeys_eq (dist : Feature → Feature → ℚ) (bins : List ℚ) (pf : ℤ)
    (a b : Feature) :
    pairFuzzKeys dist bins pf a b = (rangeZ (-pf) pf).filterMap fun i =>
      if (bins.length : ℤ) < (bin_distance (dist a b) bins : ℤ) + i ∨
          (bin_distance (dist a b) bins : ℤ) + i < 0 then none
      else some (String.mk [a.tag,
        binChar ((bin_distance (dist a b) bins : ℤ) + i), b.tag]) := rfl

/-- **C4.** Pair fuzzing uses a reduced 1-D radius independent of the 3-axis
generator: radius `1` when `fuzzy_factor < 0` and `fuzzy_factor` otherwise; a
single offset `i` runs over `[-radius, radius]`, and a perturbed pair bin is
rejected exactly when `bin + i < 0` or `bin + i > bins.length` (so
`bin + i = bins.length` is allowed), whereas the triple-fuzz bound rejects any
perturbed bin `≥ bins.length`. -/
theorem pair_fuzz_spec (dist : Feature → Feature → ℚ) (bins : List ℚ)
    (f : ℤ) (a b : Feature) :
    (f < 0 → pairFactor f = 1) ∧ (0 ≤ f → pairFactor f = f) ∧
    (∀ K : String, K ∈ pairFuzzKeys dist bins (pairFactor f) a b ↔
      ∃ i : ℤ, -(pairFactor f) ≤ i ∧ i ≤ pairFactor f ∧
        0 ≤ (bin_distance (dist a b) bins : ℤ) + i ∧
        (bin_distance (dist a b) bins : ℤ) + i ≤ (bins.length : ℤ) ∧
        K = String.mk [a.tag, binChar ((bin_distance (dist a b) bins : ℤ) + i), b.tag]) ∧
    (∀ (d0 d1 d2 : Obs) (i j k : ℤ),
      (bins.length : ℤ) ≤ d0.bin + i ∨ (bins.length : ℤ) ≤ d1.bin + j ∨
        (bins.length : ℤ) ≤ d2.bin + k →
      fuzzTripleKey bins [d0, d1, d2] (i, j, k) = none) := by
  refine ⟨fun h => by rw [pairFactor, if_pos h],
    fun h => by rw [pairFactor, if_neg (not_lt.mpr h)], fun K => ?_, ?_⟩
  · rw [pairFuzzKeys_eq, List.mem_filterMap]
    constructor
    · rintro ⟨i, hi, heq⟩
      rw [mem_rangeZ] at hi
      by_cases hcond : (bins.length : ℤ) < (bin_distance (dist a b) bins : ℤ) + i ∨
          (bin_distance (dist a b) bins : ℤ) + i < 0
      · rw [if_pos hcond] at heq
        exact absurd heq (by simp)
      · rw [if_neg hcond] at heq
        push_neg at hcond
        exact ⟨i, hi.1, hi.2, by omega, by omega, (Option.some_inj.mp heq).symm⟩
    · rintro ⟨i, h1, h2, h3, h4, rfl⟩
      refine ⟨i, mem_rangeZ.mpr ⟨h1, h2⟩, ?_⟩
      rw [if_neg (by omega)]
  · rintro d0 d1 d2 i j k h
    rw [fuzzTripleKey_cons, if_pos ?_]
    rcases h with h | h | h
    · exact Or.inl h
    · exact Or.inr (Or.inr (Or.inl h))
    · exact Or.inr (Or.inr (Or.inr (Or.inr (Or.inl h))))

/-! ### Enumeration lemmas -/

lemma mem_orderedPairs {α : Type} {l : List α} {x y : α} :
    (x, y) ∈ orderedPairs l ↔ [x, y].Sublist l := by
  induction l with
  | nil => simp [orderedPairs]
  | cons a l ih =>
    rw [orderedPairs, List.mem_append, List.mem_map, List.sublist_cons_iff]
    constructor
    · rintro (⟨y', hy', heq⟩ | h)
      · injection heq with h1 h2
        subst h1
        subst h2
        exact Or.inr ⟨_, rfl, List.singleton_sublist.mpr hy'⟩
      · exact Or.inl (ih.mp h)
    · rintro (h | ⟨r, heq, hr⟩)
      · exact Or.inr (ih.mpr h)
      · injection heq with h1 h2
        subst h1
        subst h2
        exact Or.inl ⟨y, List.singleton_sublist.mp hr, rfl⟩

lemma mem_orderedTriples {α : Type} {l : List α} {x y z : α} :
    (x, y, z) ∈ orderedTriples l ↔ [x, y, z].Sublist l := by
  induction l with
  | nil => simp [orderedTriples]
  | cons a l ih =>
    rw [orderedTriples, List.mem_append, List.mem_map, List.sublist_cons_iff]
    constructor
    · rintro (⟨p, hp, heq⟩ | h)
      · obtain ⟨p1, p2⟩ := p
        injection heq with h1 h2
        injection h2 with h2 h3
        subst h1
        subst h2
        subst h3
        exact Or.inr ⟨_, rfl, mem_orderedPairs.mp hp⟩
      · exact Or.inl (ih.mp h)
    · rintro (h | ⟨r, heq, hr⟩)
      · exact Or.inr (ih.mpr h)
      · injection heq with h1 h2
        subst h1
        subst h2
        exact Or.inl ⟨(y, z), mem_orderedPairs.mpr hr, rfl⟩

/-! ### The feature tag order -/

lemma sorted_features (fs : List Feature) :
    (List.insertionSort featR fs).Pairwise featR :=
  List.sorted_insertionSort featR fs

/-- **C9.** For every unordered pair `(a, b)` with `a` before `b` in
`ordered_features`, the base pair key is literally
`tag_a ++ bin_char ++ tag_b` in the original order — the two entries are not
re-sorted by tag — and the tag-ascending order of `ordered_features`
guarantees `tag_a ≤ tag_b`, which is what makes the literal key canonical.
The base key is among the keys the pair loop emits. -/
theorem pair_base_key_order_spec (dist : Feature → Feature → ℚ) (bins : List ℚ)
    (pf : ℤ) (fs : List Feature) (a b : Feature)
    (h : (a, b) ∈ orderedPairs (List.insertionSort featR fs)) :
    pairBaseKey dist bins a b =
      String.mk [a.tag, binChar (bin_distance (dist a b) bins), b.tag] ∧
    a.tag ≤ b.tag ∧
    pairBaseKey dist bins a b ∈ allPairKeys dist bins pf (List.insertionSort featR fs) := by
  refine ⟨rfl, ?_, ?_⟩
  · have hsub := mem_orderedPairs.mp h
    have hp := (sorted_features fs).sublist hsub
    rcases hp with _ | ⟨ha, _⟩
    exact ha b (List.mem_singleton_self b)
  · rw [allPairKeys, List.mem_flatMap]
    exact ⟨(a, b), h, List.mem_cons_self _ _⟩

/-- Witness for C9 on a concrete two-feature pharmacophore. -/
theorem pair_base_key_order_spec_witness :
    ((⟨.LIPO, 0⟩, ⟨.AROM, 1⟩) : Feature × Feature) ∈
      orderedPairs (List.insertionSort featR [⟨.AROM, 1⟩, ⟨.LIPO, 0⟩]) ∧
    (pairBaseKey (fun _ _ => 0) [] ⟨.LIPO, 0⟩ ⟨.AROM, 1⟩ =
      String.mk [Feature.tag ⟨.LIPO, 0⟩,
        binChar (bin_distance ((fun (_ _ : Feature) => (0 : ℚ)) ⟨.LIPO, 0⟩ ⟨.AROM, 1⟩) []),
        Feature.tag ⟨.AROM, 1⟩] ∧
      Feature.tag ⟨.LIPO, 0⟩ ≤ Feature.tag ⟨.AROM, 1⟩ ∧
      pairBaseKey (fun _ _ => 0) [] ⟨.LIPO, 0⟩ ⟨.AROM, 1⟩ ∈
        allPairKeys (fun _ _ => 0) [] 0
          (List.insertionSort featR [⟨.AROM, 1⟩, ⟨.LIPO, 0⟩])) :=
  ⟨by decide, pair_base_key_order_spec (fun _ _ => 0) [] 0
    [⟨.AROM, 1⟩, ⟨.LIPO, 0⟩] ⟨.LIPO, 0⟩ ⟨.AROM, 1⟩ (by decide)⟩

/-! ### Dictionary lookup lemmas -/

lemma lookupAllE_eq (bd : String → Option ℕ) (ks : List String) :
    lookupAllE bd ks = if ks.all fun k => (bd k).isSome
      then .ok (ks.filterMap bd).toFinset else .error .unknownKey := by
  induction ks with
  | nil => simp [lookupAllE]
  | cons k ks ih =>
    cases hbk : bd k with
    | none => simp [lookupAllE, hbk]
    | some b =>
      by_cases hall : ks.all fun s => (bd s).isSome
      · simp [lookupAllE, hbk, ih, hall]
      · simp [lookupAllE, hbk, ih, hall]

lemma lookupAllE_congr (bd : String → Option ℕ) {ks ks' : List String}
    (h : ks.toFinset = ks'.toFinset) : lookupAllE bd ks = lookupAllE bd ks' := by
  have hmem : ∀ k, k ∈ ks ↔ k ∈ ks' := by
    intro k
    rw [← List.mem_toFinset, h, List.mem_toFinset]
  rw [lookupAllE_eq, lookupAllE_eq]
  have hcond : (ks.all fun k => (bd k).isSome) = (ks'.all fun k => (bd k).isSome) := by
    by_cases hc : (ks'.all fun k => (bd k).isSome) = true
    · rw [hc]
      rw [List.all_eq_true] at hc ⊢
      intro x hx
      exact hc x ((hmem x).mp hx)
    · have hc2 : ¬(ks.all fun k => (bd k).isSome) = true := by
        intro hk
        apply hc
        rw [List.all_eq_true] at hk ⊢
        intro x hx
        exact hk x ((hmem x).mpr hx)
      rw [Bool.not_eq_true] at hc hc2
      rw [hc, hc2]
  rw [hcond]
  by_cases hc : (ks'.all fun k => (bd k).isSome) = true
  · rw [if_pos hc, if_pos hc]
    congr 1
    ext b
    simp only [List.mem_toFinset, List.mem_filterMap]
    constructor
    · rintro ⟨k, hk, hbd⟩
      exact ⟨k, (hmem k).mp hk, hbd⟩
    · rintro ⟨k, hk, hbd⟩
      exact ⟨k, (hmem k).mpr hk, hbd⟩
  · rw [if_neg hc, if_neg hc]

lemma lookupAllE_error_of_missing (bd : String → Option ℕ) {ks : List String}
    {K : String} (hK : K ∈ ks) (hmiss : bd K = none) :
    lookupAllE bd ks = .error .unknownKey := by
  rw [lookupAllE_eq, if_neg]
  intro hall
  have h := List.all_eq_true.mp hall K hK
  rw [hmiss] at h
  exact Bool.noConfusion h

lemma lookupAllE_ok (bd : String → Option ℕ) {ks : List String}
    (h : ∀ k ∈ ks, (bd k).isSome = true) :
    lookupAllE bd ks = .ok (ks.filterMap bd).toFinset := by
  rw [lookupAllE_eq, if_pos (List.all_eq_true.mpr h)]

lemma lookupAllE_error_is_unknownKey (bd : String → Option ℕ) {ks : List String}
    {e : KErr} (h : lookupAllE bd ks = .error e) : e = .unknownKey := by
  rw [lookupAllE_eq] at h
  by_cases hc : (ks.all fun k => (bd k).isSome) = true
  · rw [if_pos hc] at h
    exact Except.noConfusion h
  · rw [if_neg hc] at h
    injection h with h
    exact h.symm

/-- Lookup only depends on the dictionary's values at the looked-up keys. -/
lemma lookupAllE_ext {bd bd' : String → Option ℕ} {ks : List String}
    (h : ∀ k ∈ ks, bd' k = bd k) : lookupAllE bd' ks = lookupAllE bd ks := by
  induction ks with
  | nil => rfl
  | cons k ks ih =>
    have hk := h k (List.mem_cons_self _ _)
    have hrest := ih fun x hx => h x (List.mem_cons_of_mem _ hx)
    simp only [lookupAllE, hk, hrest]

/-- Every supported `fuzzy_factor` (that is, every `f ≥ -2`) yields a list
of offsets. -/
lemma fuzzy_offsets_isSome {f : ℤ} (h : -2 ≤ f) :
    ∃ offs, fuzzy_offsets f = some offs := by
  unfold fuzzy_offsets
  by_cases h0 : 0 ≤ f
  · rw [if_pos h0]
    exact ⟨_, rfl⟩
  · rcases (by omega : f = -1 ∨ f = -2) with h1 | h2
    · rw [if_neg h0, if_pos h1]
      exact ⟨_, rfl⟩
    · rw [if_neg h0, if_neg (by omega), if_pos h2]
      exact ⟨_, rfl⟩

/-- **C7.** Singleton and pair bits are emitted only when `include_subs` is
set, while triple bits are emitted regardless: whatever a successful encode
produces with `subs = false` is contained in what it produces with
`subs = true`; with `subs = false` the result depends on the dictionary only
through the triple keys (no singleton or pair key is ever looked up); and a
pharmacophore with exactly one feature yields exactly that feature's
bare-tag singleton bit when `subs = true` and an empty fingerprint when
`subs = false`. -/
theorem subs_gating_spec (bd : String → Option ℕ) (bins : List ℚ)
    (dist : Feature → Feature → ℚ) (fz : ℤ) (a : Feature) (n : ℕ)
    (fs : List Feature) (S T : Finset ℕ)
    (hvalid : -2 ≤ fz) (hbd : bd (String.mk [a.tag]) = some n)
    (hS : from_pharmacophore bd bins dist fs true fz = .ok S)
    (hT : from_pharmacophore bd bins dist fs false fz = .ok T) :
    from_pharmacophore bd bins dist [a] true fz = .ok {n} ∧
    from_pharmacophore bd bins dist [a] false fz = .ok ∅ ∧
    T ⊆ S ∧
    ∀ bd' : String → Option ℕ,
      (∀ offs ordered, fuzzy_offsets fz = some offs →
        ordered = orderedFeatures fs →
        ∀ K ∈ tripleKeyList dist bins offs ordered, bd' K = bd K) →
      from_pharmacophore bd' bins dist fs false fz =
        from_pharmacophore bd bins dist fs false fz := by
  obtain ⟨offs, hoffs⟩ := fuzzy_offsets_isSome hvalid
  have hsub1 : subKeyList dist bins fz (orderedFeatures [a]) true = [String.mk [a.tag]] := rfl
  have h1 : lookupAllE bd [String.mk [a.tag]] = .ok {n} := by
    simp [lookupAllE, hbd]
  have h2 : tripleKeyList dist bins offs (orderedFeatures [a]) = [] := rfl
  have h3 : lookupAllE bd ([] : List String) = .ok ∅ := rfl
  refine ⟨?_, ?_, ?_, ?_⟩
  · simp only [from_pharmacophore, hsub1, h1, hoffs, h2, h3]
    rw [Finset.union_empty]
  · have hsub0 : subKeyList dist bins fz (orderedFeatures [a]) false = [] := rfl
    simp only [from_pharmacophore, hsub0, h3, hoffs, h2]
    rw [Finset.union_empty]
  · have hsub0 : subKeyList dist bins fz (orderedFeatures fs) false = [] := rfl
    simp only [from_pharmacophore, hsub0, h3, hoffs] at hS hT
    cases hsubL : lookupAllE bd (subKeyList dist bins fz (orderedFeatures fs) true) with
    | error e =>
      rw [hsubL] at hS
      exact absurd hS (by simp)
    | ok sb =>
      rw [hsubL] at hS
      dsimp only at hS
      cases htripL : lookupAllE bd (tripleKeyList dist bins offs (orderedFeatures fs)) with
      | error e =>
        rw [htripL] at hS
        exact absurd hS (by simp)
      | ok tb =>
        rw [htripL] at hS hT
        dsimp only at hS hT
        injection hS with hS
        injection hT with hT
        subst hS
        subst hT
        rw [Finset.empty_union]
        exact Finset.subset_union_right
  · intro bd' hagree
    have hsub0 : subKeyList dist bins fz (orderedFeatures fs) false = [] := rfl
    have h3' : lookupAllE bd' ([] : List String) = .ok ∅ := rfl
    have htr : lookupAllE bd' (tripleKeyList dist bins offs (orderedFeatures fs)) =
        lookupAllE bd (tripleKeyList dist bins offs (orderedFeatures fs)) :=
      lookupAllE_ext (hagree offs (orderedFeatures fs) hoffs rfl)
    simp only [from_pharmacophore, hsub0, h3, h3', hoffs, htr]

/-- Witness for C7 on a one-feature pharmacophore and a one-key dictionary. -/
theorem subs_gating_spec_witness :
    (-2 : ℤ) ≤ 0 ∧
    (fun k => if k = String.mk ['H'] then some 5 else none)
      (String.mk [Feature.tag ⟨.LIPO, 0⟩]) = some 5 ∧
    from_pharmacophore (fun k => if k = String.mk ['H'] then some 5 else none)
      [] (fun _ _ => 0) [⟨.LIPO, 0⟩] true 0 = .ok {5} ∧
    from_pharmacophore (fun k => if k = String.mk ['H'] then some 5 else none)
      [] (fun _ _ => 0) [⟨.LIPO, 0⟩] false 0 = .ok ∅ ∧
    (from_pharmacophore (fun k => if k = String.mk ['H'] then some 5 else none)
      [] (fun _ _ => 0) [⟨.LIPO, 0⟩] true 0 = .ok {5} ∧
     from_pharmacophore (fun k => if k = String.mk ['H'] then some 5 else none)
      [] (fun _ _ => 0) [⟨.LIPO, 0⟩] false 0 = .ok ∅ ∧
     ((∅ : Finset ℕ) ⊆ {5} ∧
      ∀ bd' : String → Option ℕ,
        (∀ offs ordered, fuzzy_offsets 0 = some offs →
          ordered = orderedFeatures [⟨.LIPO, 0⟩] →
          ∀ K ∈ tripleKeyList (fun _ _ => 0) [] offs ordered,
            bd' K = (fun k => if k = String.mk ['H'] then some 5 else none) K) →
        from_pharmacophore bd' [] (fun _ _ => 0) [⟨.LIPO, 0⟩] false 0 =
          from_pharmacophore (fun k => if k = String.mk ['H'] then some 5 else none)
            [] (fun _ _ => 0) [⟨.LIPO, 0⟩] false 0)) :=
  ⟨by decide, by decide, by decide, by decide,
    subs_gating_spec (fun k => if k = String.mk ['H'] then some 5 else none)
      [] (fun _ _ => 0) 0 ⟨.LIPO, 0⟩ 5 [⟨.LIPO, 0⟩] {5} ∅
      (by decide) (by decide) (by decide) (by decide)⟩

/-- **C8.** If any constructed key (singleton, pair, or triple, base or
fuzz-perturbed) is absent from the bit dictionary, the whole encode call
fails with the unknown-key error: no partial fingerprint is returned. -/
theorem unknown_key_aborts_spec (bd : String → Option ℕ) (bins : List ℚ)
    (dist : Feature → Feature → ℚ) (fs : List Feature) (subs : Bool)
    (fz : ℤ) (offs : List (ℤ × ℤ × ℤ)) (K : String)
    (hoffs : fuzzy_offsets fz = some offs)
    (hK : K ∈ emittedKeys dist bins offs fz (orderedFeatures fs) subs)
    (hmiss : bd K = none) :
    from_pharmacophore bd bins dist fs subs fz = .error .unknownKey := by
  rw [emittedKeys, List.mem_append] at hK
  rcases hK with hK | hK
  · have h := lookupAllE_error_of_missing bd hK hmiss
    simp only [from_pharmacophore, h]
  · cases hsubL : lookupAllE bd (subKeyList dist bins fz (orderedFeatures fs) subs) with
    | error e =>
      have he := lookupAllE_error_is_unknownKey bd hsubL
      subst he
      simp only [from_pharmacophore, hsubL]
    | ok sb =>
      have h := lookupAllE_error_of_missing bd hK hmiss
      simp only [from_pharmacophore, hsubL, hoffs, h]

/-- Witness for C8: an empty dictionary and a one-feature pharmacophore. -/
theorem unknown_key_aborts_spec_witness :
    fuzzy_offsets 0 = some [(0, 0, 0)] ∧
    String.mk ['H'] ∈ emittedKeys (fun _ _ => 0) [] [(0, 0, 0)] 0
      (orderedFeatures [⟨.LIPO, 0⟩]) true ∧
    (fun _ : String => (none : Option ℕ)) (String.mk ['H']) = none ∧
    from_pharmacophore (fun _ => none) [] (fun _ _ => 0) [⟨.LIPO, 0⟩] true 0 =
      .error .unknownKey :=
  ⟨by decide, by decide, rfl,
    unknown_key_aborts_spec (fun _ => none) [] (fun _ _ => 0) [⟨.LIPO, 0⟩] true 0
      [(0, 0, 0)] (String.mk ['H']) (by decide) (by decide) rfl⟩

/-- **C10.** The unperturbed base pair and triple keys are looked up in the
dictionary unconditionally, with no bounds check on the unperturbed bins:
even when `bin_distance` returns `bins.length` — a bin the triple-fuzz bound
rejects (conjunct three: the zero offset is discarded) — the base key is
still constructed and looked up, so a missing base key raises the
unknown-key error instead of the combination being skipped. -/
theorem base_key_unchecked_spec (bd : String → Option ℕ) (bins : List ℚ)
    (dist : Feature → Feature → ℚ) (fs : List Feature) (subs : Bool) (fz : ℤ)
    (offs : List (ℤ × ℤ × ℤ)) (a b c : Feature)
    (hoffs : fuzzy_offsets fz = some offs)
    (hpair : (a, b) ∈ orderedPairs (orderedFeatures fs))
    (hbinPair : bin_distance (dist a b) bins = bins.length)
    (hpairMiss : bd (pairBaseKey dist bins a b) = none)
    (htrip : (a, b, c) ∈ orderedTriples (orderedFeatures fs))
    (hbinTrip : bin_distance (dist b c) bins = bins.length)
    (htripMiss : bd (tripleBaseKey dist bins a b c) = none) :
    from_pharmacophore bd bins dist fs true fz = .error .unknownKey ∧
    from_pharmacophore bd bins dist fs subs fz = .error .unknownKey ∧
    fuzzTripleKey bins (tripleBaseObs dist bins a b c) (0, 0, 0) = none := by
  have hpairKeyMem : pairBaseKey dist bins a b ∈
      subKeyList dist bins fz (orderedFeatures fs) true := by
    show pairBaseKey dist bins a b ∈
      singletonKeys (orderedFeatures fs) ++
        allPairKeys dist bins (pairFactor fz) (orderedFeatures fs)
    rw [List.mem_append]
    right
    rw [allPairKeys, List.mem_flatMap]
    exact ⟨(a, b), hpair, List.mem_cons_self _ _⟩
  have h1 := lookupAllE_error_of_missing bd hpairKeyMem hpairMiss
  have htrue : from_pharmacophore bd bins dist fs true fz = .error .unknownKey := by
    simp only [from_pharmacophore, h1]
  refine ⟨htrue, ?_, ?_⟩
  · cases subs with
    | true => exact htrue
    | false =>
      have hsub0 : subKeyList dist bins fz (orderedFeatures fs) false = [] := rfl
      have h3 : lookupAllE bd ([] : List String) = .ok ∅ := rfl
      have htripKeyMem : tripleBaseKey dist bins a b c ∈
          tripleKeyList dist bins offs (orderedFeatures fs) := by
        rw [tripleKeyList, List.mem_flatMap]
        exact ⟨(a, b, c), htrip, List.mem_cons_self _ _⟩
      have h2 := lookupAllE_error_of_missing bd htripKeyMem htripMiss
      simp only [from_pharmacophore, hsub0, h3, hoffs, h2]
  · obtain ⟨d0, d1, d2, hds⟩ : ∃ d0 d1 d2,
        tripleBaseObs dist bins a b c = [d0, d1, d2] := by
      apply List.length_eq_three.mp
      unfold tripleBaseObs
      rw [List.length_insertionSort]
      rfl
    have hmem : (⟨a.tag, (bin_distance (dist b c) bins : ℤ)⟩ : Obs) ∈
        tripleBaseObs dist bins a b c := by
      apply (List.Perm.mem_iff (List.perm_insertionSort obsR _)).mpr
      exact List.mem_cons_of_mem _ (List.mem_cons_of_mem _ (List.mem_cons_self _ _))
    rw [hds] at hmem
    rw [List.mem_cons, List.mem_cons, List.mem_cons] at hmem
    rw [hds, fuzzTripleKey_cons, if_pos]
    have hbins : ((bin_distance (dist b c) bins : ℕ) : ℤ) = (bins.length : ℤ) := by
      rw [hbinTrip]
    rcases hmem with h | h | h | h
    · left
      rw [← h]
      dsimp only
      omega
    · right; right; left
      rw [← h]
      dsimp only
      omega
    · right; right; right; right; left
      rw [← h]
      dsimp only
      omega
    · exact absurd h (List.not_mem_nil _)

/-- Witness for C10 on three features whose distances all fall past the last
bin threshold. -/
theorem base_key_unchecked_spec_witness :
    fuzzy_offsets 0 = some [(0, 0, 0)] ∧
    ((⟨.HACC, 0⟩, ⟨.LIPO, 1⟩) : Feature × Feature) ∈
      orderedPairs (orderedFeatures [⟨.HACC, 0⟩, ⟨.LIPO, 1⟩, ⟨.NEGC, 2⟩]) ∧
    bin_distance 2 [1] = ([1] : List ℚ).length ∧
    ((⟨.HACC, 0⟩, ⟨.LIPO, 1⟩, ⟨.NEGC, 2⟩) : Feature × Feature × Feature) ∈
      orderedTriples (orderedFeatures [⟨.HACC, 0⟩, ⟨.LIPO, 1⟩, ⟨.NEGC, 2⟩]) ∧
    (from_pharmacophore (fun _ => none) [1] (fun _ _ => 2)
        [⟨.HACC, 0⟩, ⟨.LIPO, 1⟩, ⟨.NEGC, 2⟩] true 0 = .error .unknownKey ∧
      from_pharmacophore (fun _ => none) [1] (fun _ _ => 2)
        [⟨.HACC, 0⟩, ⟨.LIPO, 1⟩, ⟨.NEGC, 2⟩] false 0 = .error .unknownKey ∧
      fuzzTripleKey [1]
        (tripleBaseObs (fun _ _ => 2) [1] ⟨.HACC, 0⟩ ⟨.LIPO, 1⟩ ⟨.NEGC, 2⟩)
        (0, 0, 0) = none) :=
  ⟨by decide, by decide, by decide, by decide,
    base_key_unchecked_spec (fun _ => none) [1] (fun _ _ => 2)
      [⟨.HACC, 0⟩, ⟨.LIPO, 1⟩, ⟨.NEGC, 2⟩] false 0 [(0, 0, 0)]
      ⟨.HACC, 0⟩ ⟨.LIPO, 1⟩ ⟨.NEGC, 2⟩
      (by decide) (by decide) (by decide) rfl (by decide) (by decide) rfl⟩

/-! ### Permutation invariance of the key sets -/

lemma pair_group_swap {dist : Feature → Feature → ℚ} {bins : List ℚ} {pf : ℤ}
    {a b : Feature} (hsym : dist a b = dist b a) (htag : a.tag = b.tag) :
    pairBaseKey dist bins a b = pairBaseKey dist bins b a ∧
    pairFuzzKeys dist bins pf a b = pairFuzzKeys dist bins pf b a := by
  constructor
  · unfold pairBaseKey
    rw [hsym, htag]
  · rw [pairFuzzKeys_eq, pairFuzzKeys_eq, hsym, htag]

lemma tripleObs_swap01 {dist : Feature → Feature → ℚ} {bins : List ℚ}
    (hsym : ∀ x y : Feature, dist x y = dist y x) (a b c : Feature) :
    (tripleObs dist bins a b c).Perm (tripleObs dist bins b a c) := by
  unfold tripleObs
  rw [hsym b a]
  exact List.Perm.cons _ (List.Perm.swap _ _ _)

lemma tripleObs_swap12 {dist : Feature → Feature → ℚ} {bins : List ℚ}
    (hsym : ∀ x y : Feature, dist x y = dist y x) (a b c : Feature) :
    (tripleObs dist bins a b c).Perm (tripleObs dist bins a c b) := by
  unfold tripleObs
  rw [hsym c b]
  exact List.Perm.swap _ _ _

lemma pair_perm_cases {α : Type} {p q x y : α} (h : [p, q].Perm [x, y]) :
    (p = x ∧ q = y) ∨ (p = y ∧ q = x) := by
  have hp : p ∈ [x, y] := h.subset (List.mem_cons_self _ _)
  rcases List.mem_cons.mp hp with h1 | h1
  · left
    refine ⟨h1, ?_⟩
    rw [h1] at h
    have h2 := h.cons_inv
    rw [List.perm_singleton] at h2
    exact (List.cons_eq_cons.mp h2).1
  · have h1' : p = y := by
      rcases List.mem_cons.mp h1 with h2 | h2
      · exact h2
      · exact absurd h2 (List.not_mem_nil _)
    right
    refine ⟨h1', ?_⟩
    rw [h1'] at h
    have h3 : ([y, q]).Perm [y, x] := h.trans (List.Perm.swap y x [])
    have h4 := h3.cons_inv
    rw [List.perm_singleton] at h4
    exact (List.cons_eq_cons.mp h4).1

lemma tripleObs_perm {dist : Feature → Feature → ℚ} {bins : List ℚ}
    (hsym : ∀ x y : Feature, dist x y = dist y x) {x y z a b c : Feature}
    (h : [x, y, z].Perm [a, b, c]) :
    (tripleObs dist bins x y z).Perm (tripleObs dist bins a b c) := by
  have hx : x ∈ [a, b, c] := h.subset (List.mem_cons_self _ _)
  rcases List.mem_cons.mp hx with h1 | h1
  · -- x = a
    rw [h1] at h
    have h2 := h.cons_inv
    rcases pair_perm_cases h2 with ⟨hy, hz⟩ | ⟨hy, hz⟩
    · rw [h1, hy, hz]
    · rw [h1, hy, hz]
      exact tripleObs_swap12 hsym a c b
  rcases List.mem_cons.mp h1 with h2 | h2
  · -- x = b
    rw [h2] at h
    have h3 : ([b, y, z]).Perm [b, a, c] := h.trans (List.Perm.swap b a [c])
    have h4 := h3.cons_inv
    rcases pair_perm_cases h4 with ⟨hy, hz⟩ | ⟨hy, hz⟩
    · rw [h2, hy, hz]
      exact (tripleObs_swap01 hsym a b c).symm
    · rw [h2, hy, hz]
      exact (tripleObs_swap12 hsym b c a).trans (tripleObs_swap01 hsym a b c).symm
  · -- x = c
    have h2' : x = c := by
      rcases List.mem_cons.mp h2 with h3 | h3
      · exact h3
      · exact absurd h3 (List.not_mem_nil _)
    rw [h2'] at h
    have hcomp : ([a, b, c]).Perm [c, a, b] :=
      (List.Perm.cons a (List.Perm.swap c b [])).trans (List.Perm.swap c a [b])
    have h3 := h.trans hcomp
    have h4 := h3.cons_inv
    rcases pair_perm_cases h4 with ⟨hy, hz⟩ | ⟨hy, hz⟩
    · rw [h2', hy, hz]
      exact (tripleObs_swap01 hsym c a b).trans (tripleObs_swap12 hsym a b c).symm
    · rw [h2', hy, hz]
      exact ((tripleObs_swap01 hsym c b a).trans (tripleObs_swap12 hsym b c a)).trans
        (tripleObs_swap01 hsym a b c).symm

/-- The whole key production of a triple only depends on the multiset of its
features (given a symmetric distance). -/
lemma tripleKeys_congr {dist : Feature → Feature → ℚ} {bins : List ℚ}
    {offs : List (ℤ × ℤ × ℤ)} (hsym : ∀ x y : Feature, dist x y = dist y x)
    {x y z a b c : Feature} (h : [x, y, z].Perm [a, b, c]) :
    tripleKeys dist bins offs x y z = tripleKeys dist bins offs a b c := by
  have hbase : tripleBaseObs dist bins x y z = tripleBaseObs dist bins a b c :=
    obs_insertionSort_eq_of_perm (tripleObs_perm hsym h)
  unfold tripleKeys tripleBaseKey
  rw [hbase]

lemma tripleKeyList_mem_mono {dist : Feature → Feature → ℚ} {bins : List ℚ}
    {offs : List (ℤ × ℤ × ℤ)} (hsym : ∀ x y : Feature, dist x y = dist y x)
    {l₁ l₂ : List Feature} (h12 : l₁.Perm l₂) {K : String}
    (hK : K ∈ tripleKeyList dist bins offs l₁) :
    K ∈ tripleKeyList dist bins offs l₂ := by
  rw [tripleKeyList, List.mem_flatMap] at hK ⊢
  obtain ⟨⟨x, y, z⟩, ht, hk⟩ := hK
  have hsp : [x, y, z].Subperm l₂ :=
    ((mem_orderedTriples.mp ht).subperm).trans h12.subperm
  obtain ⟨u, hu_perm, hu_sub⟩ := hsp
  obtain ⟨p, q, r, rfl⟩ : ∃ p q r, u = [p, q, r] :=
    List.length_eq_three.mp (by rw [hu_perm.length_eq]; rfl)
  refine ⟨(p, q, r), mem_orderedTriples.mpr hu_sub, ?_⟩
  rw [tripleKeys_congr hsym hu_perm]
  exact hk

lemma allPairKeys_mem_mono {dist : Feature → Feature → ℚ} {bins : List ℚ}
    {pf : ℤ} (hsym : ∀ x y : Feature, dist x y = dist y x)
    {l₁ l₂ : List Feature} (h12 : l₁.Perm l₂)
    (s₁ : l₁.Pairwise featR) (s₂ : l₂.Pairwise featR) {K : String}
    (hK : K ∈ allPairKeys dist bins pf l₁) :
    K ∈ allPairKeys dist bins pf l₂ := by
  rw [allPairKeys, List.mem_flatMap] at hK ⊢
  obtain ⟨⟨x, y⟩, hp, hk⟩ := hK
  have hsub := mem_orderedPairs.mp hp
  have hsp : [x, y].Subperm l₂ := hsub.subperm.trans h12.subperm
  obtain ⟨u, hu_perm, hu_sub⟩ := hsp
  obtain ⟨p, q, rfl⟩ : ∃ p q, u = [p, q] :=
    List.length_eq_two.mp (by rw [hu_perm.length_eq]; rfl)
  rcases pair_perm_cases hu_perm with ⟨rfl, rfl⟩ | ⟨rfl, rfl⟩
  · exact ⟨(p, q), mem_orderedPairs.mpr hu_sub, hk⟩
  · have h1 : featR q p := by
      have hpw := s₁.sublist hsub
      rcases hpw with _ | ⟨ha, _⟩
      exact ha p (List.mem_singleton_self _)
    have h2 : featR p q := by
      have hpw := s₂.sublist hu_sub
      rcases hpw with _ | ⟨ha, _⟩
      exact ha q (List.mem_singleton_self _)
    have htag : p.tag = q.tag := le_antisymm h2 h1
    obtain ⟨hb, hf⟩ := pair_group_swap (hsym p q) htag
    refine ⟨(p, q), mem_orderedPairs.mpr hu_sub, ?_⟩
    show K ∈ pairBaseKey dist bins p q :: pairFuzzKeys dist bins pf p q
    rw [hb, hf]
    exact hk

lemma tripleKeyList_toFinset_eq {dist : Feature → Feature → ℚ} {bins : List ℚ}
    {offs : List (ℤ × ℤ × ℤ)} (hsym : ∀ x y : Feature, dist x y = dist y x)
    {l₁ l₂ : List Feature} (h12 : l₁.Perm l₂) :
    (tripleKeyList dist bins offs l₁).toFinset =
      (tripleKeyList dist bins offs l₂).toFinset := by
  ext K
  rw [List.mem_toFinset, List.mem_toFinset]
  exact ⟨tripleKeyList_mem_mono hsym h12, tripleKeyList_mem_mono hsym h12.symm⟩

lemma allPairKeys_toFinset_eq {dist : Feature → Feature → ℚ} {bins : List ℚ}
    {pf : ℤ} (hsym : ∀ x y : Feature, dist x y = dist y x)
    {l₁ l₂ : List Feature} (h12 : l₁.Perm l₂)
    (s₁ : l₁.Pairwise featR) (s₂ : l₂.Pairwise featR) :
    (allPairKeys dist bins pf l₁).toFinset = (allPairKeys dist bins pf l₂).toFinset := by
  ext K
  rw [List.mem_toFinset, List.mem_toFinset]
  exact ⟨allPairKeys_mem_mono hsym h12 s₁ s₂, allPairKeys_mem_mono hsym h12.symm s₂ s₁⟩

lemma subKeyList_toFinset_eq {dist : Feature → Feature → ℚ} {bins : List ℚ}
    {fz : ℤ} (hsym : ∀ x y : Feature, dist x y = dist y x)
    {l₁ l₂ : List Feature} (h12 : l₁.Perm l₂)
    (s₁ : l₁.Pairwise featR) (s₂ : l₂.Pairwise featR) (subs : Bool) :
    (subKeyList dist bins fz l₁ subs).toFinset =
      (subKeyList dist bins fz l₂ subs).toFinset := by
  cases subs with
  | false => rfl
  | true =>
    show (singletonKeys l₁ ++ allPairKeys dist bins (pairFactor fz) l₁).toFinset =
      (singletonKeys l₂ ++ allPairKeys dist bins (pairFactor fz) l₂).toFinset
    have hsk : (singletonKeys l₁).Perm (singletonKeys l₂) := h12.map _
    rw [List.toFinset_append, List.toFinset_append,
      List.toFinset_eq_of_perm (singletonKeys l₁) (singletonKeys l₂) hsk,
      allPairKeys_toFinset_eq hsym h12 s₁ s₂]

/-- **C1.** For every pharmacophore with at least three features, encoding it
and encoding any permutation of its feature collection with the same
parameters yields identical results (fingerprint or error alike): the
features are first sorted by tag character and every key is canonical in the
feature multiset, the distance being symmetric. -/
theorem encode_perm_invariant (bd : String → Option ℕ) (bins : List ℚ)
    (dist : Feature → Feature → ℚ) (subs : Bool) (fz : ℤ)
    (fs fs' : List Feature)
    (hsym : ∀ x y : Feature, dist x y = dist y x)
    (hperm : fs.Perm fs') (hlen : 3 ≤ fs.length) :
    from_pharmacophore bd bins dist fs subs fz =
      from_pharmacophore bd bins dist fs' subs fz := by
  have hp : (orderedFeatures fs).Perm (orderedFeatures fs') :=
    (List.perm_insertionSort featR fs).trans
      (hperm.trans (List.perm_insertionSort featR fs').symm)
  have hs₁ : (orderedFeatures fs).Pairwise featR := sorted_features fs
  have hs₂ : (orderedFeatures fs').Pairwise featR := sorted_features fs'
  have h1 : lookupAllE bd (subKeyList dist bins fz (orderedFeatures fs) subs) =
      lookupAllE bd (subKeyList dist bins fz (orderedFeatures fs') subs) :=
    lookupAllE_congr bd (subKeyList_toFinset_eq hsym hp hs₁ hs₂ subs)
  have h2 : ∀ offs : List (ℤ × ℤ × ℤ),
      lookupAllE bd (tripleKeyList dist bins offs (orderedFeatures fs)) =
        lookupAllE bd (tripleKeyList dist bins offs (orderedFeatures fs')) :=
    fun _ => lookupAllE_congr bd (tripleKeyList_toFinset_eq hsym hp)
  simp only [from_pharmacophore, h1, h2]

/-- Witness for C1: a three-feature pharmacophore rotated, with a concrete
symmetric distance. -/
theorem encode_perm_invariant_witness :
    from_pharmacophore (fun _ => some 0) [1]
        (fun x y => ((x.fid + y.fid : ℕ) : ℚ))
        [⟨.LIPO, 0⟩, ⟨.HACC, 1⟩, ⟨.AROM, 2⟩] true 1 =
      from_pharmacophore (fun _ => some 0) [1]
        (fun x y => ((x.fid + y.fid : ℕ) : ℚ))
        [⟨.AROM, 2⟩, ⟨.LIPO, 0⟩, ⟨.HACC, 1⟩] true 1 :=
  encode_perm_invariant (fun _ => some 0) [1]
    (fun x y => ((x.fid + y.fid : ℕ) : ℚ)) true 1
    [⟨.LIPO, 0⟩, ⟨.HACC, 1⟩, ⟨.AROM, 2⟩] [⟨.AROM, 2⟩, ⟨.LIPO, 0⟩, ⟨.HACC, 1⟩]
    (fun x y => by
      show ((x.fid + y.fid : ℕ) : ℚ) = ((y.fid + x.fid : ℕ) : ℚ)
      rw [Nat.add_comm])
    (by decide) (by decide)
